import Mathlib

/-!
Verification of the numerical core of a 3-D Euler–Bernoulli beam finite-element
program (threed-beam-fea).  The C++ source in `src/src/threed_beam_fea.cpp` and
`src/include/*.h` is shallowly embedded over the rationals: `Eigen::Vector3d`
becomes `Vec3`, the 12×12 `LocalMatrix` becomes `Matrix (Fin 12) (Fin 12) ℚ`,
sparse global matrices become functions `ℤ → ℤ → ℚ` (Eigen triplet indices are
C `int`s), `Eigen::Triplet` lists become `List (ℤ × ℤ × ℚ)`, and
`SparseMatrix::insert` becomes pointwise functional update.  Division follows
the source expressions literally; `x / 0 = 0` is the rational stand-in for the
IEEE quotient on the (degenerate) zero-denominator path.
-/

set_option maxHeartbeats 1600000

open scoped Matrix

namespace Fea

/-- `Eigen::Vector3d` over ℚ: components `c0, c1, c2` (Eigen's `v(0), v(1), v(2)`). -/
structure Vec3 where
  c0 : ℚ
  c1 : ℚ
  c2 : ℚ
deriving DecidableEq

/-- Eigen's `a.cross(b)` for 3-vectors. -/
def cross (a b : Vec3) : Vec3 :=
  ⟨a.c1 * b.c2 - a.c2 * b.c1, a.c2 * b.c0 - a.c0 * b.c2, a.c0 * b.c1 - a.c1 * b.c0⟩

/-- Eigen's `v.squaredNorm()`. -/
def squaredNorm (v : Vec3) : ℚ := v.c0 * v.c0 + v.c1 * v.c1 + v.c2 * v.c2

/-- Eigen's `a.dot(b)`. -/
def dot (a b : Vec3) : ℚ := a.c0 * b.c0 + a.c1 * b.c1 + a.c2 * b.c2

/-- The local-z vector computed at the top of `GlobalStiffAssembler::calcAelem`
(threed_beam_fea.cpp lines 138–141): `nz = nx.cross(ny); const double dlz =
nz.squaredNorm(); nz /= dlz;`.  The division is by the squared norm, exactly as
in the source. -/
def calcAelem_nz (nx ny : Vec3) : Vec3 :=
  let nz := cross nx ny
  let dlz := squaredNorm nz
  ⟨nz.c0 / dlz, nz.c1 / dlz, nz.c2 / dlz⟩

/-- Entry function of the rotation matrix `Aelem` written by
`GlobalStiffAssembler::calcAelem` (threed_beam_fea.cpp lines 144–182), given the
row vectors `nx`, `ny` and the already-computed `nz`.  The constructor zeroes the
matrix (`Aelem.setZero()` in the header), so unlisted positions are 0. -/
def AelemEntry (nx ny nz : Vec3) (i j : ℕ) : ℚ :=
  match i, j with
  | 0, 0 => nx.c0 | 0, 1 => nx.c1 | 0, 2 => nx.c2
  | 1, 0 => ny.c0 | 1, 1 => ny.c1 | 1, 2 => ny.c2
  | 2, 0 => nz.c0 | 2, 1 => nz.c1 | 2, 2 => nz.c2
  | 3, 3 => nx.c0 | 3, 4 => nx.c1 | 3, 5 => nx.c2
  | 4, 3 => ny.c0 | 4, 4 => ny.c1 | 4, 5 => ny.c2
  | 5, 3 => nz.c0 | 5, 4 => nz.c1 | 5, 5 => nz.c2
  | 6, 6 => nx.c0 | 6, 7 => nx.c1 | 6, 8 => nx.c2
  | 7, 6 => ny.c0 | 7, 7 => ny.c1 | 7, 8 => ny.c2
  | 8, 6 => nz.c0 | 8, 7 => nz.c1 | 8, 8 => nz.c2
  | 9, 9 => nx.c0 | 9, 10 => nx.c1 | 9, 11 => nx.c2
  | 10, 9 => ny.c0 | 10, 10 => ny.c1 | 10, 11 => ny.c2
  | 11, 9 => nz.c0 | 11, 10 => nz.c1 | 11, 11 => nz.c2
  | _, _ => 0

/-- The 12×12 rotation matrix produced by `GlobalStiffAssembler::calcAelem`
from the axis vector `nx` and the reference normal `ny`. -/
def calcAelem (nx ny : Vec3) : Matrix (Fin 12) (Fin 12) ℚ :=
  Matrix.of fun i j => AelemEntry nx ny (calcAelem_nz nx ny) i.val j.val

/-- Entry function of the transposed rotation matrix `AelemT` written by
`GlobalStiffAssembler::calcAelem` (threed_beam_fea.cpp lines 185–223). -/
def AelemTEntry (nx ny nz : Vec3) (i j : ℕ) : ℚ :=
  match i, j with
  | 0, 0 => nx.c0 | 0, 1 => ny.c0 | 0, 2 => nz.c0
  | 1, 0 => nx.c1 | 1, 1 => ny.c1 | 1, 2 => nz.c1
  | 2, 0 => nx.c2 | 2, 1 => ny.c2 | 2, 2 => nz.c2
  | 3, 3 => nx.c0 | 3, 4 => ny.c0 | 3, 5 => nz.c0
  | 4, 3 => nx.c1 | 4, 4 => ny.c1 | 4, 5 => nz.c1
  | 5, 3 => nx.c2 | 5, 4 => ny.c2 | 5, 5 => nz.c2
  | 6, 6 => nx.c0 | 6, 7 => ny.c0 | 6, 8 => nz.c0
  | 7, 6 => nx.c1 | 7, 7 => ny.c1 | 7, 8 => nz.c1
  | 8, 6 => nx.c2 | 8, 7 => ny.c2 | 8, 8 => nz.c2
  | 9, 9 => nx.c0 | 9, 10 => ny.c0 | 9, 11 => nz.c0
  | 10, 9 => nx.c1 | 10, 10 => ny.c1 | 10, 11 => nz.c1
  | 11, 9 => nx.c2 | 11, 10 => ny.c2 | 11, 11 => nz.c2
  | _, _ => 0

/-- The transposed rotation matrix kept by the assembler. -/
def calcAelemT (nx ny : Vec3) : Matrix (Fin 12) (Fin 12) ℚ :=
  Matrix.of fun i j => AelemTEntry nx ny (calcAelem_nz nx ny) i.val j.val

/-- Entry function of the local stiffness matrix `Klocal` written by
`GlobalStiffAssembler::calcKelem` (threed_beam_fea.cpp lines 69–120), with the
source's temporaries `tmpEA = EA/length`, `tmpGJ = GJ/length`,
`tmp12z = 12·EIz/length³`, `tmp6z = 6·EIz/length²`, `tmp1z = EIz/length` (and
the `y` analogues) inlined, in the source's assignment order.  The constructor
zeroes the matrix (`Klocal.setZero()`), so unlisted positions are 0. -/
def KlocalEntry (EA EIz EIy GJ L : ℚ) (i j : ℕ) : ℚ :=
  match i, j with
  | 0, 0 => EA / L
  | 0, 6 => -(EA / L)
  | 1, 1 => 12 * EIz / (L * L * L)
  | 1, 5 => 6 * EIz / (L * L)
  | 1, 7 => -(12 * EIz / (L * L * L))
  | 1, 11 => 6 * EIz / (L * L)
  | 2, 2 => 12 * EIy / (L * L * L)
  | 2, 4 => -(6 * EIy / (L * L))
  | 2, 8 => -(12 * EIy / (L * L * L))
  | 2, 10 => -(6 * EIy / (L * L))
  | 3, 3 => GJ / L
  | 3, 9 => -(GJ / L)
  | 4, 2 => -(6 * EIy / (L * L))
  | 4, 4 => 4 * (EIy / L)
  | 4, 8 => 6 * EIy / (L * L)
  | 4, 10 => 2 * (EIy / L)
  | 5, 1 => 6 * EIz / (L * L)
  | 5, 5 => 4 * (EIz / L)
  | 5, 7 => -(6 * EIz / (L * L))
  | 5, 11 => 2 * (EIz / L)
  | 6, 0 => -(EA / L)
  | 6, 6 => EA / L
  | 7, 1 => -(12 * EIz / (L * L * L))
  | 7, 5 => -(6 * EIz / (L * L))
  | 7, 7 => 12 * EIz / (L * L * L)
  | 7, 11 => -(6 * EIz / (L * L))
  | 8, 2 => -(12 * EIy / (L * L * L))
  | 8, 4 => 6 * EIy / (L * L)
  | 8, 8 => 12 * EIy / (L * L * L)
  | 8, 10 => 6 * EIy / (L * L)
  | 9, 3 => -(GJ / L)
  | 9, 9 => GJ / L
  | 10, 2 => -(6 * EIy / (L * L))
  | 10, 4 => 2 * (EIy / L)
  | 10, 8 => 6 * EIy / (L * L)
  | 10, 10 => 4 * (EIy / L)
  | 11, 1 => 6 * EIz / (L * L)
  | 11, 5 => 2 * (EIz / L)
  | 11, 7 => -(6 * EIz / (L * L))
  | 11, 11 => 4 * (EIz / L)
  | _, _ => 0

/-- The local elemental stiffness matrix of `calcKelem`, as a function of the
section stiffnesses and the element length `L = ‖p2 − p1‖`. -/
def Klocal (EA EIz EIy GJ L : ℚ) : Matrix (Fin 12) (Fin 12) ℚ :=
  Matrix.of fun i j => KlocalEntry EA EIz EIy GJ L i.val j.val

/-- Stated from the claim's words (spec §4.1): with `a = EA/L`, `t = GJ/L`,
`z3 = 12·EIz/L³`, `z2 = 6·EIz/L²`, `z1 = EIz/L`, `y3 = 12·EIy/L³`,
`y2 = 6·EIy/L²`, `y1 = EIy/L` (powers of `L` written as repeated products),
the listed symmetric placements, every other entry zero.  Grouped exactly as
the claim lists them; used only for comparison with `Klocal`. -/
def KlocalSpecEntry (EA EIz EIy GJ L : ℚ) (i j : ℕ) : ℚ :=
  let a := EA / L
  let t := GJ / L
  let z3 := 12 * EIz / (L * L * L)
  let z2 := 6 * EIz / (L * L)
  let z1 := EIz / L
  let y3 := 12 * EIy / (L * L * L)
  let y2 := 6 * EIy / (L * L)
  let y1 := EIy / L
  match i, j with
  | 0, 0 => a | 6, 6 => a | 0, 6 => -a | 6, 0 => -a
  | 3, 3 => t | 9, 9 => t | 3, 9 => -t | 9, 3 => -t
  | 1, 1 => z3 | 7, 7 => z3 | 1, 7 => -z3 | 7, 1 => -z3
  | 1, 5 => z2 | 5, 1 => z2 | 1, 11 => z2 | 11, 1 => z2
  | 5, 7 => -z2 | 7, 5 => -z2 | 7, 11 => -z2 | 11, 7 => -z2
  | 5, 5 => 4 * z1 | 11, 11 => 4 * z1 | 5, 11 => 2 * z1 | 11, 5 => 2 * z1
  | 2, 2 => y3 | 8, 8 => y3 | 2, 8 => -y3 | 8, 2 => -y3
  | 2, 4 => -y2 | 4, 2 => -y2 | 2, 10 => -y2 | 10, 2 => -y2
  | 4, 8 => y2 | 8, 4 => y2 | 8, 10 => y2 | 10, 8 => y2
  | 4, 4 => 4 * y1 | 10, 10 => 4 * y1 | 4, 10 => 2 * y1 | 10, 4 => 2 * y1
  | _, _ => 0

/-- The claim-side local stiffness matrix. -/
def KlocalSpec (EA EIz EIy GJ L : ℚ) : Matrix (Fin 12) (Fin 12) ℚ :=
  Matrix.of fun i j => KlocalSpecEntry EA EIz EIy GJ L i.val j.val

/-- Entry function of the 3×3 direction-cosine block: rows `nx`, `ny`, `nz`. -/
def rotBlockEntry (nx ny nz : Vec3) (i j : ℕ) : ℚ :=
  match i, j with
  | 0, 0 => nx.c0 | 0, 1 => nx.c1 | 0, 2 => nx.c2
  | 1, 0 => ny.c0 | 1, 1 => ny.c1 | 1, 2 => ny.c2
  | 2, 0 => nz.c0 | 2, 1 => nz.c1 | 2, 2 => nz.c2
  | _, _ => 0

/-- The 3×3 direction-cosine block: rows `nx`, `ny`, `nz`. -/
def rotBlock (nx ny nz : Vec3) : Matrix (Fin 3) (Fin 3) ℚ :=
  Matrix.of fun i j => rotBlockEntry nx ny nz i.val j.val

/-- Index bijection exhibiting the 3+3+3+3 block structure of the 12×12
rotation matrix: DOF `i` belongs to block `i / 3` at block-local index `i % 3`. -/
def blockEquiv : Fin 12 ≃ Fin 3 × Fin 4 where
  toFun i := (⟨i.val % 3, by omega⟩, ⟨i.val / 3, by omega⟩)
  invFun p := ⟨p.1.val + 3 * p.2.val, by omega⟩
  left_inv := by decide
  right_inv := by decide

end Fea

namespace Fea

/-- An Eigen triplet `(row, col, value)`; indices are C `int`s, embedded as `ℤ`. -/
abbrev Triplet := ℤ × ℤ × ℚ

/-- The global index map of `GlobalStiffAssembler::operator()` (threed_beam_fea.cpp
lines 252–279): a local row/col `r < 6` goes to `dofs_per_elem * nn1 + r`, and
otherwise to `dofs_per_elem * (nn2 - 1) + r`, in `int` arithmetic. -/
def globalIndex (nn1 nn2 : ℤ) (r : ℕ) : ℤ :=
  if r < 6 then 6 * nn1 + r else 6 * (nn2 - 1) + r

/-- Triplets pushed for one element (threed_beam_fea.cpp lines 246–281).  Eigen's
sparse view of `Kelem` stores only nonzero entries and iterates them column-major
(outer index = column); zero entries produce no triplet. -/
def elemTriplets (nn1 nn2 : ℤ) (K : Matrix (Fin 12) (Fin 12) ℚ) : List Triplet :=
  (List.finRange 12).flatMap fun c =>
    (List.finRange 12).filterMap fun r =>
      if K r c = 0 then none
      else some (globalIndex nn1 nn2 r.val, globalIndex nn1 nn2 c.val, K r c)

/-- Stated from the claim's words: local position `(r, c)` of the element matrix
goes to global row `6·n1 + r` when `r < 6` and `6·n2 + (r − 6)` when `r ≥ 6`,
and likewise for columns. -/
def claimIndex (n1 n2 : ℤ) (r : ℕ) : ℤ :=
  if r < 6 then 6 * n1 + r else 6 * n2 + ((r - 6 : ℕ) : ℤ)

/-- Claim-side element scatter, identical to `elemTriplets` except that it
places entries with `claimIndex`. -/
def elemTripletsClaim (nn1 nn2 : ℤ) (K : Matrix (Fin 12) (Fin 12) ℚ) : List Triplet :=
  (List.finRange 12).flatMap fun c =>
    (List.finRange 12).filterMap fun r =>
      if K r c = 0 then none
      else some (claimIndex nn1 nn2 r.val, claimIndex nn1 nn2 c.val, K r c)

/-- `fea::Tie` (containers.h lines 194–215). -/
structure Tie where
  node_number_1 : ℕ
  node_number_2 : ℕ
  lmult : ℚ
  rmult : ℚ

/-- Triplets pushed by `loadTies` (threed_beam_fea.cpp lines 309–341): for each
DOF `j`, spring constant `lmult` when `j < 3`, else `rmult`; `+k` on the two
diagonal positions, `−k` on the two coupling positions. -/
def tieTriplets (ties : List Tie) : List Triplet :=
  ties.flatMap fun t =>
    (List.range 6).flatMap fun j =>
      let spring_constant : ℚ := if j < 3 then t.lmult else t.rmult
      [(6 * (t.node_number_1 : ℤ) + j, 6 * (t.node_number_1 : ℤ) + j, spring_constant),
       (6 * (t.node_number_2 : ℤ) + j, 6 * (t.node_number_2 : ℤ) + j, spring_constant),
       (6 * (t.node_number_1 : ℤ) + j, 6 * (t.node_number_2 : ℤ) + j, -spring_constant),
       (6 * (t.node_number_2 : ℤ) + j, 6 * (t.node_number_1 : ℤ) + j, -spring_constant)]

/-- `SparseMatrix::setFromTriplets` (threed_beam_fea.cpp line 286): the matrix
starts from zero and the triplets are accumulated one at a time, so repeated
coordinates sum. -/
def setFromTriplets (ts : List Triplet) : ℤ → ℤ → ℚ :=
  ts.foldl (fun M t => fun r c => if r = t.1 ∧ c = t.2.1 then M r c + t.2.2 else M r c)
    fun _ _ => 0

/-- One element's contribution to assembly: the node pair of `job.elems[i]` and
the rotated elemental stiffness `Kelem = AelemT * Klocal * Aelem` computed by
`calcKelem`.  `Kelem` is carried abstractly because its entries involve the
irrational element length; the assembly claims are about placement. -/
structure ElemContrib where
  nn1 : ℕ
  nn2 : ℕ
  K : Matrix (Fin 12) (Fin 12) ℚ

/-- The triplet list accumulated by `GlobalStiffAssembler::operator()`
(threed_beam_fea.cpp lines 235–284): the per-element scatter in element order,
then `loadTies`. -/
def assembleTriplets (elems : List ElemContrib) (ties : List Tie) : List Triplet :=
  (elems.flatMap fun e => elemTriplets e.nn1 e.nn2 e.K) ++ tieTriplets ties

/-- The sparse global stiffness matrix after `Kg.setFromTriplets` (line 286). -/
def assembleKg (elems : List ElemContrib) (ties : List Tie) : ℤ → ℤ → ℚ :=
  setFromTriplets (assembleTriplets elems ties)

/-- `fea::BC` (containers.h lines 70–94). -/
structure BC where
  node : ℕ
  dof : ℕ
  value : ℚ

/-- `fea::Force` (containers.h lines 109–133). -/
structure Force where
  node : ℕ
  dof : ℕ
  value : ℚ

/-- A term of an `fea::Equation` (containers.h lines 246–264). -/
structure Term where
  node_number : ℕ
  dof : ℕ
  coefficient : ℚ

/-- `fea::Equation` (containers.h lines 239–278). -/
structure Equation where
  terms : List Term

/-- `SparseMatrix::insert(r, c) = v` as functional update. -/
def insertK (M : ℤ → ℤ → ℚ) (r c : ℤ) (v : ℚ) : ℤ → ℤ → ℚ :=
  fun r' c' => if r' = r ∧ c' = c then v else M r' c'

/-- `SparseMatrix::insert(r, 0) = v` on the one-column force vector. -/
def insertF (f : ℤ → ℚ) (r : ℤ) (v : ℚ) : ℤ → ℚ :=
  fun r' => if r' = r then v else f r'

/-- `std::numeric_limits<double>::epsilon() = 2⁻⁵²`. -/
def machineEpsilon : ℚ := 1 / 2 ^ 52

/-- Loop body of `loadBCs` acting on the stiffness matrix (threed_beam_fea.cpp
lines 295–301): the running Lagrange index starts at `global_add_idx =
6 * num_nodes` and advances by one per boundary condition; each condition inserts
`Kg(bc_idx, lag) = 1` and `Kg(lag, bc_idx) = 1` where `bc_idx = 6*node + dof`. -/
def loadBCsAuxK (Kg : ℤ → ℤ → ℚ) (l : List BC) (lag : ℤ) : ℤ → ℤ → ℚ :=
  match l with
  | [] => Kg
  | bc :: rest =>
      loadBCsAuxK
        (insertK (insertK Kg (6 * (bc.node : ℤ) + bc.dof) lag 1) lag
          (6 * (bc.node : ℤ) + bc.dof) 1)
        rest (lag + 1)

/-- `loadBCs` effect on the global stiffness matrix. -/
def loadBCs_K (Kg : ℤ → ℤ → ℚ) (BCs : List BC) (num_nodes : ℕ) : ℤ → ℤ → ℚ :=
  loadBCsAuxK Kg BCs (6 * (num_nodes : ℤ))

/-- Loop body of `loadBCs` acting on the force vector (threed_beam_fea.cpp
lines 302–305): the entry at the Lagrange index is written only when
`std::abs(value) > std::numeric_limits<double>::epsilon()`. -/
def loadBCsAuxF (f : ℤ → ℚ) (l : List BC) (lag : ℤ) : ℤ → ℚ :=
  match l with
  | [] => f
  | bc :: rest =>
      loadBCsAuxF (if machineEpsilon < |bc.value| then insertF f lag bc.value else f)
        rest (lag + 1)

/-- `loadBCs` effect on the force vector. -/
def loadBCs_f (f : ℤ → ℚ) (BCs : List BC) (num_nodes : ℕ) : ℤ → ℚ :=
  loadBCsAuxF f BCs (6 * (num_nodes : ℤ))

/-- `loadForces` (threed_beam_fea.cpp lines 368–376): for each force,
`force_vec.insert(6*node + dof, 0) = value`, in list order. -/
def loadForces (f : ℤ → ℚ) (l : List Force) : ℤ → ℚ :=
  match l with
  | [] => f
  | F :: rest => loadForces (insertF f (6 * (F.node : ℤ) + F.dof) F.value) rest

/-- Modelled from the spec: the inner loop of `loadEquations` over the terms of
one equation.  `loadEquations` is declared in include/threed_beam_fea.h
(line 182) and called by the solve entry point the examples use, but its
definition is not among the source files.  Spec §4.2: for every term `(n, d, c)`
of the equation with row `r`, set `Kg[r, 6n+d] = Kg[6n+d, r] = c`. -/
def loadEquationsTerms (Kg : ℤ → ℤ → ℚ) (row : ℤ) (l : List Term) : ℤ → ℤ → ℚ :=
  match l with
  | [] => Kg
  | t :: rest =>
      loadEquationsTerms
        (insertK (insertK Kg row (6 * (t.node_number : ℤ) + t.dof) t.coefficient)
          (6 * (t.node_number : ℤ) + t.dof) row t.coefficient)
        row rest

/-- Modelled from the spec: the outer loop of `loadEquations`; equation `e`
uses row `r = base + e`. -/
def loadEquationsAux (Kg : ℤ → ℤ → ℚ) (l : List Equation) (row : ℤ) : ℤ → ℤ → ℚ :=
  match l with
  | [] => Kg
  | eqn :: rest => loadEquationsAux (loadEquationsTerms Kg row eqn.terms) rest (row + 1)

/-- Modelled from the spec: `loadEquations` with base row
`M + |BCs| = 6·num_nodes + num_bcs` (spec §4.2). -/
def loadEquations (Kg : ℤ → ℤ → ℚ) (eqns : List Equation) (num_nodes num_bcs : ℕ) :
    ℤ → ℤ → ℚ :=
  loadEquationsAux Kg eqns (6 * (num_nodes : ℤ) + num_bcs)

/-- Modelled from the spec: the order of the global system built by the solve
entry point with equation constraints.  That entry point is declared at
include/threed_beam_fea.h lines 229–234 and called by the examples, but its
definition is absent from the source files; the five-argument `solve` in
threed_beam_fea.cpp line 394 uses `size = dofs_per_elem * nodes + BCs.size()`,
and spec §4.2 extends this to `N = 6·|nodes| + |BCs| + |equations|`. -/
def solveSize (num_nodes num_bcs num_eqns : ℕ) : ℕ :=
  6 * num_nodes + num_bcs + num_eqns

/-- Modelled from the spec: global stiffness matrix of the equations-capable
solve — assemble elements and ties, then `loadBCs`, then `loadEquations`. -/
def solveKg (elems : List ElemContrib) (ties : List Tie) (BCs : List BC)
    (eqns : List Equation) (num_nodes : ℕ) : ℤ → ℤ → ℚ :=
  loadEquations (loadBCs_K (assembleKg elems ties) BCs num_nodes) eqns num_nodes BCs.length

/-- The right-hand side built by `solve` (threed_beam_fea.cpp lines 398–420):
a zero vector, then `loadBCs`, then `loadForces`; equation rows receive no
entry (spec §4.2). -/
def solveF (BCs : List BC) (forces : List Force) (num_nodes : ℕ) : ℤ → ℚ :=
  loadForces (loadBCs_f (fun _ => 0) BCs num_nodes) forces

/-- `Kg.topLeftCorner(m, m)` on the function representation. -/
def topLeftCorner (Kg : ℤ → ℤ → ℚ) (m : ℕ) : ℤ → ℤ → ℚ :=
  fun r c => if 0 ≤ r ∧ r < m ∧ 0 ≤ c ∧ c < m then Kg r c else 0

/-- `v.topRows(m)` on the function representation. -/
def topRows (f : ℤ → ℚ) (m : ℕ) : ℤ → ℚ :=
  fun r => if 0 ≤ r ∧ r < m then f r else 0

/-- Row `r` of the sparse matrix–vector product of an `m × m` matrix with an
`m`-vector. -/
def sparseMatVec (K : ℤ → ℤ → ℚ) (v : ℤ → ℚ) (m : ℕ) (r : ℤ) : ℚ :=
  ∑ c ∈ Finset.range m, K r (c : ℤ) * v (c : ℤ)

/-- Displacement post-processing (threed_beam_fea.cpp lines 475–481): entry
`(i, j)` of `nodal_displacements`: the solution entry at `6*i + j`, rounded to
zero when its magnitude is strictly below `options.epsilon`. -/
def dispVecEntry (disp : ℤ → ℚ) (eps : ℚ) (i j : ℕ) : ℚ :=
  if |disp (6 * (i : ℤ) + j)| < eps then 0 else disp (6 * (i : ℤ) + j)

/-- Nodal-force recovery (threed_beam_fea.cpp lines 487–501): `Kg` is truncated
to its top-left `6·num_nodes × 6·num_nodes` corner, `disp` to its top
`6·num_nodes` rows, row `6*i + j` of the product is taken, and the result is
rounded to zero when its magnitude is strictly below `options.epsilon`. -/
def nodalForcesEntry (Kg : ℤ → ℤ → ℚ) (disp : ℤ → ℚ) (num_nodes : ℕ) (eps : ℚ)
    (i j : ℕ) : ℚ :=
  let v := sparseMatVec (topLeftCorner Kg (6 * num_nodes)) (topRows disp (6 * num_nodes))
    (6 * num_nodes) (6 * (i : ℤ) + j)
  if |v| < eps then 0 else v

/-- Stated from the claim's words: epsilon rounding — an entry of magnitude
strictly less than `eps` is replaced by 0. -/
def roundEps (eps x : ℚ) : ℚ :=
  if |x| < eps then 0 else x

end Fea

namespace Fea

lemma cross_squaredNorm_eq (a b : Vec3) :
    squaredNorm (cross a b) = squaredNorm a * squaredNorm b - dot a b * dot a b := by
  simp only [cross, squaredNorm, dot]
  ring

lemma calcAelem_nz_of_unit_cross (nx ny : Vec3) (h : squaredNorm (cross nx ny) = 1) :
    calcAelem_nz nx ny = cross nx ny := by
  simp only [calcAelem_nz, h, div_one]

lemma calcAelemT_eq_transpose (nx ny : Vec3) : calcAelemT nx ny = (calcAelem nx ny)ᵀ := by
  ext i j
  fin_cases i <;> fin_cases j <;> rfl

lemma calcAelem_eq_blockDiagonal (nx ny : Vec3) :
    calcAelem nx ny =
      (Matrix.blockDiagonal fun _ : Fin 4 => rotBlock nx ny (calcAelem_nz nx ny)).submatrix
        blockEquiv blockEquiv := by
  ext i j
  fin_cases i <;> fin_cases j <;> rfl

lemma rotBlock_mul_transpose (nx ny : Vec3) (hnx : squaredNorm nx = 1)
    (hny : squaredNorm ny = 1) (hd : dot nx ny = 0) :
    rotBlock nx ny (cross nx ny) * (rotBlock nx ny (cross nx ny))ᵀ = 1 := by
  have hc : squaredNorm (cross nx ny) = 1 := by
    rw [cross_squaredNorm_eq, hnx, hny, hd]
    ring
  simp only [squaredNorm, cross] at hnx hny hc
  simp only [dot] at hd
  ext i j
  fin_cases i <;> fin_cases j <;>
    simp [rotBlock, rotBlockEntry, Matrix.mul_apply, Fin.sum_univ_succ, Matrix.one_apply,
      cross, Matrix.transpose_apply] <;>
    first
      | linear_combination hnx
      | linear_combination hny
      | linear_combination hd
      | linear_combination hc
      | ring

lemma calcAelem_transpose_mul_self (nx ny : Vec3) (hnx : squaredNorm nx = 1)
    (hny : squaredNorm ny = 1) (hd : dot nx ny = 0) :
    (calcAelem nx ny)ᵀ * calcAelem nx ny = 1 := by
  have hc : squaredNorm (cross nx ny) = 1 := by
    rw [cross_squaredNorm_eq, hnx, hny, hd]
    ring
  have hB := rotBlock_mul_transpose nx ny hnx hny hd
  have hBt : (rotBlock nx ny (cross nx ny))ᵀ * rotBlock nx ny (cross nx ny) = 1 :=
    Matrix.mul_eq_one_comm.mp hB
  rw [calcAelem_eq_blockDiagonal, calcAelem_nz_of_unit_cross nx ny hc,
    Matrix.transpose_submatrix, Matrix.blockDiagonal_transpose,
    Matrix.submatrix_mul_equiv, ← Matrix.blockDiagonal_mul]
  simp only [hBt]
  have hone : (fun _ : Fin 4 => (1 : Matrix (Fin 3) (Fin 3) ℚ)) = 1 := rfl
  rw [hone, Matrix.blockDiagonal_one, Matrix.submatrix_one_equiv]

lemma calcAelem_of_zero_cross (nx ny : Vec3) (h : cross nx ny = ⟨0, 0, 0⟩) :
    calcAelem nx ny = Matrix.of fun i j => AelemEntry nx ny ⟨0, 0, 0⟩ i.val j.val := by
  have hnz : calcAelem_nz nx ny = ⟨0, 0, 0⟩ := by
    simp only [calcAelem_nz, h]
    norm_num
  unfold calcAelem
  rw [hnz]

end Fea

namespace Fea

/-- C1: for any section stiffnesses and positive element length, the local
stiffness matrix written by `calcKelem` has exactly the nonzero pattern of the
standard spatial Euler–Bernoulli beam stiffness listed in the claim (all other
entries zero), and it is symmetric. -/
theorem calcKelem_local_stiffness_correct (EA EIz EIy GJ L : ℚ) (hL : 0 < L) :
    (∀ i j : Fin 12, Klocal EA EIz EIy GJ L i j = KlocalSpec EA EIz EIy GJ L i j) ∧
    (∀ i j : Fin 12, Klocal EA EIz EIy GJ L i j = Klocal EA EIz EIy GJ L j i) := by
  constructor
  · intro i j
    fin_cases i <;> fin_cases j <;> rfl
  · intro i j
    fin_cases i <;> fin_cases j <;> rfl

/-- C1 witness: the theorem instantiated at `EA = EIz = EIy = GJ = 10`, `L = 1`
(the first L-bracket element of the repository's test suite). -/
theorem calcKelem_local_stiffness_correct_witness :
    (0 : ℚ) < 1 ∧
      ((∀ i j : Fin 12, Klocal 10 10 10 10 1 i j = KlocalSpec 10 10 10 10 1 i j) ∧
       (∀ i j : Fin 12, Klocal 10 10 10 10 1 i j = Klocal 10 10 10 10 1 j i)) :=
  ⟨by norm_num, calcKelem_local_stiffness_correct 10 10 10 10 1 (by norm_num)⟩

/-- C3: evaluation of `calcAelem` at the failing input `nx = (3/5, 4/5, 0)`,
`ny = (1, 0, 0)` — both unit vectors with nonzero cross product `(0, 0, −4/5)`.
The source divides the cross product by its squared norm `16/25`
(`calcAelem`, threed_beam_fea.cpp lines 138–141), so the third block row is
`(0, 0, −5/4)`, whose squared Euclidean norm is `25/16 ≠ 1`: the row is not a
unit vector, contradicting the claim (and the source's own comment
"calculate the unit normal vector in local z direction"). -/
theorem calcAelem_nz_not_unit_at_failing_input :
    squaredNorm ⟨3/5, 4/5, 0⟩ = 1 ∧
    squaredNorm ⟨1, 0, 0⟩ = 1 ∧
    cross ⟨3/5, 4/5, 0⟩ ⟨1, 0, 0⟩ ≠ ⟨0, 0, 0⟩ ∧
    calcAelem_nz ⟨3/5, 4/5, 0⟩ ⟨1, 0, 0⟩ = ⟨0, 0, -(5/4)⟩ ∧
    squaredNorm (calcAelem_nz ⟨3/5, 4/5, 0⟩ ⟨1, 0, 0⟩) = 25/16 ∧
    calcAelem ⟨3/5, 4/5, 0⟩ ⟨1, 0, 0⟩ 2 2 = -(5/4) ∧
    ((25 : ℚ)/16) ≠ 1 := by
  have h22 : ∀ a b : Vec3, calcAelem a b 2 2 = (calcAelem_nz a b).c2 := fun a b => rfl
  refine ⟨by norm_num [squaredNorm], by norm_num [squaredNorm], ?_, ?_, ?_, ?_, by norm_num⟩
  · simp only [cross]
    norm_num
  · simp only [calcAelem_nz, cross, squaredNorm]
    norm_num
  · simp only [calcAelem_nz, cross, squaredNorm]
    norm_num
  · rw [h22]
    simp only [calcAelem_nz, cross, squaredNorm]
    norm_num

end Fea

namespace Fea

/-- C4 (amended): with the axis `(1,0,0)` and normal `(0,1,0)` the 12×12
rotation matrix equals the identity; and `Rᵀ R = 1` whenever the axis and the
reference normal are unit vectors and mutually perpendicular (the claim's
"any valid normal" is narrowed to perpendicular unit normals, as forced by the
counterexample). -/
theorem calcAelem_identity_and_orthonormality :
    calcAelem ⟨1, 0, 0⟩ ⟨0, 1, 0⟩ = 1 ∧
    ∀ nx ny : Vec3, squaredNorm nx = 1 → squaredNorm ny = 1 → dot nx ny = 0 →
      (calcAelem nx ny)ᵀ * calcAelem nx ny = 1 := by
  constructor
  · have hnz : calcAelem_nz ⟨1, 0, 0⟩ ⟨0, 1, 0⟩ = ⟨0, 0, 1⟩ := by
      simp only [calcAelem_nz, cross, squaredNorm]
      norm_num
    unfold calcAelem
    rw [hnz]
    ext i j
    fin_cases i <;> fin_cases j <;> rfl
  · exact fun nx ny hnx hny hd => calcAelem_transpose_mul_self nx ny hnx hny hd

/-- C4 witness: the orthonormality part applied at the perpendicular unit pair
`nx = (0,0,1)`, `ny = (0,1,0)`. -/
theorem calcAelem_identity_and_orthonormality_witness :
    squaredNorm ⟨0, 0, 1⟩ = 1 ∧ squaredNorm ⟨0, 1, 0⟩ = 1 ∧
    dot ⟨0, 0, 1⟩ ⟨0, 1, 0⟩ = 0 ∧
    (calcAelem ⟨0, 0, 1⟩ ⟨0, 1, 0⟩)ᵀ * calcAelem ⟨0, 0, 1⟩ ⟨0, 1, 0⟩ = 1 :=
  ⟨by norm_num [squaredNorm], by norm_num [squaredNorm], by norm_num [dot],
    calcAelem_identity_and_orthonormality.2 _ _ (by norm_num [squaredNorm])
      (by norm_num [squaredNorm]) (by norm_num [dot])⟩

/-- C4 counterexample: with the unit axis `(1,0,0)` and the unit but
non-perpendicular reference normal `(3/5, 4/5, 0)` — a valid normal in the
claim's sense, its cross product with the axis being nonzero — the rotation
matrix `R` built by the source has `(Rᵀ R) 0 0 = 34/25`, so `Rᵀ R ≠ 1`. -/
theorem calcAelem_orthonormality_counterexample :
    cross ⟨1, 0, 0⟩ ⟨3/5, 4/5, 0⟩ ≠ ⟨0, 0, 0⟩ ∧
    ((calcAelem ⟨1, 0, 0⟩ ⟨3/5, 4/5, 0⟩)ᵀ * calcAelem ⟨1, 0, 0⟩ ⟨3/5, 4/5, 0⟩) 0 0 = 34/25 ∧
    (calcAelem ⟨1, 0, 0⟩ ⟨3/5, 4/5, 0⟩)ᵀ * calcAelem ⟨1, 0, 0⟩ ⟨3/5, 4/5, 0⟩ ≠ 1 := by
  have hnz : calcAelem_nz ⟨1, 0, 0⟩ ⟨3/5, 4/5, 0⟩ = ⟨0, 0, 5/4⟩ := by
    simp only [calcAelem_nz, cross, squaredNorm]
    norm_num
  have hA := calcAelem_eq_blockDiagonal ⟨1, 0, 0⟩ ⟨3/5, 4/5, 0⟩
  rw [hnz] at hA
  have hprod : (calcAelem ⟨1, 0, 0⟩ ⟨3/5, 4/5, 0⟩)ᵀ * calcAelem ⟨1, 0, 0⟩ ⟨3/5, 4/5, 0⟩ =
      (Matrix.blockDiagonal fun _ : Fin 4 =>
        (rotBlock ⟨1, 0, 0⟩ ⟨3/5, 4/5, 0⟩ ⟨0, 0, 5/4⟩)ᵀ *
          rotBlock ⟨1, 0, 0⟩ ⟨3/5, 4/5, 0⟩ ⟨0, 0, 5/4⟩).submatrix blockEquiv blockEquiv := by
    rw [hA, Matrix.transpose_submatrix, Matrix.blockDiagonal_transpose,
      Matrix.submatrix_mul_equiv, ← Matrix.blockDiagonal_mul]
  have hentry : ((calcAelem ⟨1, 0, 0⟩ ⟨3/5, 4/5, 0⟩)ᵀ *
      calcAelem ⟨1, 0, 0⟩ ⟨3/5, 4/5, 0⟩) 0 0 = 34/25 := by
    rw [hprod]
    simp [Matrix.submatrix_apply, blockEquiv, Matrix.blockDiagonal_apply, Matrix.mul_apply,
      Fintype.sum_prod_type, Fin.sum_univ_succ, rotBlock, rotBlockEntry,
      Matrix.transpose_apply]
    norm_num
  refine ⟨?_, hentry, ?_⟩
  · simp only [cross, Vec3.mk.injEq]
    norm_num
  · intro h
    rw [h, Matrix.one_apply_eq] at hentry
    norm_num at hentry

/-- C8 (amended): when the reference normal is collinear with the element axis
(zero cross product), `calcAelem` performs no check and signals no error: it
still produces a rotation matrix, whose third block rows are the rational
rendering `0/0 = 0` of the IEEE `NaN`s the source computes. -/
theorem calcAelem_collinear_no_error (nx ny : Vec3) (h : cross nx ny = ⟨0, 0, 0⟩) :
    calcAelem nx ny = Matrix.of fun i j => AelemEntry nx ny ⟨0, 0, 0⟩ i.val j.val :=
  calcAelem_of_zero_cross nx ny h

/-- C8 counterexample: for the collinear pair `nx = (1,0,0)`, `ny = (2,0,0)`
the cross product is exactly zero, yet `calcAelem` runs to completion and
produces a 12×12 matrix — there is no ill-posed-element error anywhere on this
code path (threed_beam_fea.cpp lines 136–141 contain no check). -/
theorem calcAelem_collinear_counterexample :
    cross ⟨1, 0, 0⟩ ⟨2, 0, 0⟩ = ⟨0, 0, 0⟩ ∧
    calcAelem ⟨1, 0, 0⟩ ⟨2, 0, 0⟩ =
      Matrix.of fun i j => AelemEntry ⟨1, 0, 0⟩ ⟨2, 0, 0⟩ ⟨0, 0, 0⟩ i.val j.val := by
  have h : cross ⟨1, 0, 0⟩ ⟨2, 0, 0⟩ = ⟨0, 0, 0⟩ := by
    simp only [cross]
    norm_num
  exact ⟨h, calcAelem_of_zero_cross _ _ h⟩

/-- C8 witness: the amended theorem applied at the collinear pair
`nx = (1,0,0)`, `ny = (2,0,0)`. -/
theorem calcAelem_collinear_no_error_witness :
    cross ⟨1, 0, 0⟩ ⟨2, 0, 0⟩ = ⟨0, 0, 0⟩ ∧
    calcAelem ⟨1, 0, 0⟩ ⟨2, 0, 0⟩ =
      Matrix.of fun i j => AelemEntry ⟨1, 0, 0⟩ ⟨2, 0, 0⟩ ⟨0, 0, 0⟩ i.val j.val :=
  ⟨by simp only [cross]; norm_num,
    calcAelem_collinear_no_error _ _ (by simp only [cross]; norm_num)⟩

end Fea

namespace Fea

lemma globalIndex_eq_claimIndex (n1 n2 : ℤ) (r : ℕ) :
    globalIndex n1 n2 r = claimIndex n1 n2 r := by
  unfold globalIndex claimIndex
  split
  · rfl
  · omega

lemma elemTriplets_eq_claim (nn1 nn2 : ℤ) (K : Matrix (Fin 12) (Fin 12) ℚ) :
    elemTriplets nn1 nn2 K = elemTripletsClaim nn1 nn2 K := by
  simp only [elemTriplets, elemTripletsClaim, globalIndex_eq_claimIndex]

lemma foldl_triplets_apply (ts : List Triplet) (M0 : ℤ → ℤ → ℚ) (r c : ℤ) :
    (ts.foldl
        (fun M t => fun r' c' => if r' = t.1 ∧ c' = t.2.1 then M r' c' + t.2.2 else M r' c')
        M0) r c =
      M0 r c + ((ts.filter fun t => decide (r = t.1 ∧ c = t.2.1)).map fun t => t.2.2).sum := by
  induction ts generalizing M0 with
  | nil => simp
  | cons t ts ih =>
      rw [List.foldl_cons, ih]
      by_cases h : r = t.1 ∧ c = t.2.1
      · simp [List.filter_cons, h]
        ring
      · simp [List.filter_cons, h]

lemma setFromTriplets_apply (ts : List Triplet) (r c : ℤ) :
    setFromTriplets ts r c =
      ((ts.filter fun t => decide (r = t.1 ∧ c = t.2.1)).map fun t => t.2.2).sum := by
  unfold setFromTriplets
  rw [foldl_triplets_apply]
  simp

end Fea

namespace Fea

/-- C2: the assembler's element scatter places the entry at local position
`(r, c)` at global row `6·n1 + r` when `r < 6` and `6·n2 + (r − 6)` when
`r ≥ 6` (and likewise for columns) — the source's `6·(n2 − 1) + r` for `r ≥ 6`
is that same index — and the set-from-triplets pass sums every triplet landing
on the same global coordinate. -/
theorem assembler_scatter_and_duplicate_sum :
    (∀ (nn1 nn2 : ℤ) (K : Matrix (Fin 12) (Fin 12) ℚ),
      elemTriplets nn1 nn2 K = elemTripletsClaim nn1 nn2 K) ∧
    (∀ (ts : List Triplet) (r c : ℤ),
      setFromTriplets ts r c =
        ((ts.filter fun t => decide (r = t.1 ∧ c = t.2.1)).map fun t => t.2.2).sum) :=
  ⟨elemTriplets_eq_claim, setFromTriplets_apply⟩

end Fea

namespace Fea

lemma loadBCsAuxK_frame (l : List BC) (Kg : ℤ → ℤ → ℚ) (lag r c : ℤ)
    (hr : ∀ k : ℕ, r ≠ lag + k) (hc : ∀ k : ℕ, c ≠ lag + k) :
    loadBCsAuxK Kg l lag r c = Kg r c := by
  induction l generalizing Kg lag with
  | nil => rfl
  | cons bc rest ih =>
      have h1 : r ≠ lag := by have := hr 0; simpa using this
      have h2 : c ≠ lag := by have := hc 0; simpa using this
      rw [loadBCsAuxK,
        ih _ _ (fun k => by have := hr (k + 1); push_cast at this ⊢; omega)
          (fun k => by have := hc (k + 1); push_cast at this ⊢; omega)]
      simp [insertK, h1, h2]

/-- C10: `loadBCs` only writes coefficients whose row or column index is a
Lagrange index `6·num_nodes + i`, so the leading `6·num_nodes × 6·num_nodes`
principal block of the global stiffness matrix is unchanged — for every list of
boundary conditions. -/
theorem loadBCs_preserves_free_block (Kg : ℤ → ℤ → ℚ) (BCs : List BC) (num_nodes : ℕ)
    (r c : ℤ) (hr : r < 6 * (num_nodes : ℤ)) (hc : c < 6 * (num_nodes : ℤ)) :
    loadBCs_K Kg BCs num_nodes r c = Kg r c :=
  loadBCsAuxK_frame BCs Kg (6 * (num_nodes : ℤ)) r c
    (fun k => by push_cast; omega) (fun k => by push_cast; omega)

/-- C10 witness: the theorem applied to a one-node, one-BC system at the
free-block position `(0, 0)`, on a matrix whose entries all equal 42. -/
theorem loadBCs_preserves_free_block_witness :
    (0 : ℤ) < 6 * ((1 : ℕ) : ℤ) ∧
    loadBCs_K (fun _ _ => (42 : ℚ)) [⟨0, 0, 1⟩] 1 0 0 = 42 :=
  ⟨by norm_num,
    loadBCs_preserves_free_block (fun _ _ => (42 : ℚ)) [⟨0, 0, 1⟩] 1 0 0
      (by norm_num) (by norm_num)⟩

end Fea

namespace Fea

lemma loadBCsAuxF_frame (l : List BC) (f : ℤ → ℚ) (lag r : ℤ)
    (hr : ∀ k : ℕ, r ≠ lag + k) :
    loadBCsAuxF f l lag r = f r := by
  induction l generalizing f lag with
  | nil => rfl
  | cons bc rest ih =>
      have h0 : r ≠ lag := by have := hr 0; simpa using this
      rw [loadBCsAuxF, ih _ _ (fun k => by have := hr (k + 1); push_cast at this ⊢; omega)]
      by_cases hv : machineEpsilon < |bc.value| <;> simp [hv, insertF, h0]

lemma loadBCsAuxK_value (l : List BC) (Kg : ℤ → ℤ → ℚ) (lag : ℤ)
    (hall : ∀ bc ∈ l, 6 * (bc.node : ℤ) + bc.dof < lag) (i : Fin l.length) :
    loadBCsAuxK Kg l lag (lag + i.val) (6 * ((l.get i).node : ℤ) + (l.get i).dof) = 1 ∧
    loadBCsAuxK Kg l lag (6 * ((l.get i).node : ℤ) + (l.get i).dof) (lag + i.val) = 1 := by
  induction l generalizing Kg lag with
  | nil => exact absurd i.isLt (by simp)
  | cons bc rest ih =>
      rcases i with ⟨iv, hiv⟩
      cases iv with
      | zero =>
          have hbc : 6 * (bc.node : ℤ) + bc.dof < lag := hall bc (List.mem_cons_self bc rest)
          have hne : 6 * (bc.node : ℤ) + bc.dof ≠ lag := ne_of_lt hbc
          have hfr : ∀ k : ℕ, lag ≠ (lag + 1) + k := fun k => by push_cast; omega
          have hfc : ∀ k : ℕ, 6 * (bc.node : ℤ) + bc.dof ≠ (lag + 1) + k := fun k => by
            have := hbc
            push_cast
            omega
          constructor
          · show loadBCsAuxK Kg (bc :: rest) lag (lag + ((0 : ℕ) : ℤ))
              (6 * (bc.node : ℤ) + bc.dof) = 1
            rw [loadBCsAuxK, loadBCsAuxK_frame rest _ (lag + 1) _ _
              (fun k => by push_cast; omega) hfc]
            simp [insertK]
          · show loadBCsAuxK Kg (bc :: rest) lag (6 * (bc.node : ℤ) + bc.dof)
              (lag + ((0 : ℕ) : ℤ)) = 1
            rw [loadBCsAuxK, loadBCsAuxK_frame rest _ (lag + 1) _ _ hfc
              (fun k => by push_cast; omega)]
            simp [insertK, hne]
      | succ n =>
          have hn : n < rest.length := by simpa using hiv
          have hrest : ∀ b ∈ rest, 6 * (b.node : ℤ) + b.dof < lag + 1 := fun b hb => by
            have := hall b (List.mem_cons_of_mem bc hb)
            omega
          have ihh := ih (insertK (insertK Kg (6 * (bc.node : ℤ) + bc.dof) lag 1) lag
            (6 * (bc.node : ℤ) + bc.dof) 1) (lag + 1) hrest ⟨n, hn⟩
          have harith : lag + 1 + ((n : ℕ) : ℤ) = lag + (((n + 1 : ℕ)) : ℤ) := by
            push_cast
            ring
          constructor
          · show loadBCsAuxK Kg (bc :: rest) lag (lag + ((n + 1 : ℕ) : ℤ))
              (6 * ((rest.get ⟨n, hn⟩).node : ℤ) + (rest.get ⟨n, hn⟩).dof) = 1
            rw [loadBCsAuxK, ← harith]
            exact ihh.1
          · show loadBCsAuxK Kg (bc :: rest) lag
              (6 * ((rest.get ⟨n, hn⟩).node : ℤ) + (rest.get ⟨n, hn⟩).dof)
              (lag + ((n + 1 : ℕ) : ℤ)) = 1
            rw [loadBCsAuxK, ← harith]
            exact ihh.2

lemma loadBCsAuxF_value (l : List BC) (f : ℤ → ℚ) (lag : ℤ) (i : Fin l.length) :
    loadBCsAuxF f l lag (lag + i.val) =
      if machineEpsilon < |(l.get i).value| then (l.get i).value else f (lag + i.val) := by
  induction l generalizing f lag with
  | nil => exact absurd i.isLt (by simp)
  | cons bc rest ih =>
      rcases i with ⟨iv, hiv⟩
      cases iv with
      | zero =>
          show loadBCsAuxF f (bc :: rest) lag (lag + ((0 : ℕ) : ℤ)) =
            if machineEpsilon < |bc.value| then bc.value else f (lag + ((0 : ℕ) : ℤ))
          rw [loadBCsAuxF, loadBCsAuxF_frame rest _ (lag + 1) _
            (fun k => by push_cast; omega)]
          by_cases hv : machineEpsilon < |bc.value| <;> simp [hv, insertF]
      | succ n =>
          have hn : n < rest.length := by simpa using hiv
          have harith : lag + 1 + ((n : ℕ) : ℤ) = lag + (((n + 1 : ℕ)) : ℤ) := by
            push_cast
            ring
          have hne : lag + 1 + ((n : ℕ) : ℤ) ≠ lag := by push_cast; omega
          show loadBCsAuxF f (bc :: rest) lag (lag + ((n + 1 : ℕ) : ℤ)) =
            if machineEpsilon < |(rest.get ⟨n, hn⟩).value| then (rest.get ⟨n, hn⟩).value
            else f (lag + ((n + 1 : ℕ) : ℤ))
          rw [loadBCsAuxF, ← harith, ih _ (lag + 1) ⟨n, hn⟩]
          by_cases hv : machineEpsilon < |bc.value| <;>
            by_cases hw : machineEpsilon < |(rest.get ⟨n, hn⟩).value| <;>
            simp [hv, hw, insertF, hne]

end Fea

namespace Fea

/-- C6 (amended): after `loadBCs`, for BC index `i` addressing `(n, d, v)` and
`M = 6·num_nodes`, the stiffness matrix holds `Kg[M+i, 6n+d] = Kg[6n+d, M+i] = 1`;
the right-hand side holds `f[M+i] = v` when `|v|` exceeds the double-precision
machine epsilon `2⁻⁵²`, and `f[M+i] = 0` otherwise (the source skips the write
for small `|v|`, threed_beam_fea.cpp line 303). -/
theorem loadBCs_lagrange_rows (Kg : ℤ → ℤ → ℚ) (BCs : List BC) (num_nodes : ℕ)
    (hvalid : ∀ bc ∈ BCs, bc.node < num_nodes ∧ bc.dof < 6) (i : Fin BCs.length) :
    loadBCs_K Kg BCs num_nodes (6 * (num_nodes : ℤ) + i.val)
        (6 * ((BCs.get i).node : ℤ) + (BCs.get i).dof) = 1 ∧
    loadBCs_K Kg BCs num_nodes (6 * ((BCs.get i).node : ℤ) + (BCs.get i).dof)
        (6 * (num_nodes : ℤ) + i.val) = 1 ∧
    loadBCs_f (fun _ => 0) BCs num_nodes (6 * (num_nodes : ℤ) + i.val) =
      if machineEpsilon < |(BCs.get i).value| then (BCs.get i).value else 0 := by
  have hall : ∀ bc ∈ BCs, 6 * (bc.node : ℤ) + bc.dof < 6 * (num_nodes : ℤ) := by
    intro bc hbc
    have := hvalid bc hbc
    push_cast
    omega
  have hk := loadBCsAuxK_value BCs Kg (6 * (num_nodes : ℤ)) hall i
  have hf := loadBCsAuxF_value BCs (fun _ => 0) (6 * (num_nodes : ℤ)) i
  exact ⟨hk.1, hk.2, hf⟩

/-- C6 witness: one node held at `u_y = 5`: the Lagrange pair lands at
`(6, 1)`/`(1, 6)` and the right-hand side at index 6 receives 5. -/
theorem loadBCs_lagrange_rows_witness :
    loadBCs_K (fun _ _ => 0) [⟨0, 1, 5⟩] 1 6 1 = 1 ∧
    loadBCs_K (fun _ _ => 0) [⟨0, 1, 5⟩] 1 1 6 = 1 ∧
    loadBCs_f (fun _ => 0) [⟨0, 1, 5⟩] 1 6 = 5 := by
  have h := loadBCs_lagrange_rows (fun _ _ => 0) [⟨0, 1, 5⟩] 1
    (by
      intro bc hbc
      rw [List.mem_singleton] at hbc
      subst hbc
      exact ⟨by norm_num, by norm_num⟩)
    ⟨0, by norm_num⟩
  obtain ⟨h1, h2, h3⟩ := h
  norm_num at h1 h2 h3
  have habs : machineEpsilon < (5 : ℚ) := by norm_num [machineEpsilon]
  rw [if_pos habs] at h3
  exact ⟨h1, h2, h3⟩

/-- C6 counterexample: a prescribed value `v = 2⁻⁵³` with `0 < |v| ≤ machine
epsilon` is not written to the right-hand side: the entry at the Lagrange index
6 stays 0 ≠ v, contradicting the claim's "for every prescribed value v,
including values with 0 < |v| ≤ machine epsilon". -/
theorem loadBCs_small_value_counterexample :
    (0 : ℚ) < |(1 : ℚ) / 2 ^ 53| ∧
    |(1 : ℚ) / 2 ^ 53| ≤ machineEpsilon ∧
    loadBCs_f (fun _ => 0) [⟨0, 0, 1 / 2 ^ 53⟩] 1 6 = 0 ∧
    (0 : ℚ) ≠ (1 : ℚ) / 2 ^ 53 := by
  have habs : |(1 : ℚ) / 2 ^ 53| = 1 / 2 ^ 53 := abs_of_pos (by norm_num)
  refine ⟨by rw [habs]; norm_num, by rw [habs]; norm_num [machineEpsilon], ?_, by norm_num⟩
  show loadBCsAuxF (fun _ => 0) [⟨0, 0, 1 / 2 ^ 53⟩] 6 6 = 0
  rw [loadBCsAuxF]
  rw [if_neg (by rw [habs]; norm_num [machineEpsilon])]
  rfl

end Fea

namespace Fea

lemma loadForces_apply (l : List Force) (f : ℤ → ℚ) (idx : ℤ) :
    loadForces f l idx =
      (l.filter fun F => decide (6 * (F.node : ℤ) + F.dof = idx)).foldl
        (fun _ F => F.value) (f idx) := by
  induction l generalizing f with
  | nil => rfl
  | cons F rest ih =>
      rw [loadForces, ih]
      by_cases h : 6 * (F.node : ℤ) + F.dof = idx
      · simp [List.filter_cons, h, insertF]
      · have hne : idx ≠ 6 * (F.node : ℤ) + F.dof := fun hh => h hh.symm
        simp [List.filter_cons, h, insertF, hne]

lemma foldl_const_getLast (fs : List Force) (init : ℚ) (h : fs ≠ []) :
    fs.foldl (fun _ F => F.value) init = (fs.getLast h).value := by
  induction fs generalizing init with
  | nil => exact absurd rfl h
  | cons F rest ih =>
      cases rest with
      | nil => simp [List.getLast]
      | cons G rest' =>
          have hlast : (F :: G :: rest').getLast h = (G :: rest').getLast (by simp) :=
            List.getLast_cons (by simp)
          rw [List.foldl_cons, ih F.value (by simp), hlast]

end Fea

namespace Fea

/-- C9: when the forces list contains several entries addressing the same
`(node, dof)` pair, `loadForces` runs to completion and the right-hand-side
entry at `6·node + dof` equals the value of the last such entry: each
`force_vec.insert` is an overwrite, not a summation. -/
theorem loadForces_overwrites_duplicates (forces : List Force) (n d : ℕ) (hd : d < 6)
    (hall : ∀ F ∈ forces, F.dof < 6)
    (h2 : 2 ≤ (forces.filter fun F => decide (F.node = n ∧ F.dof = d)).length)
    (f : ℤ → ℚ) :
    (forces.filter fun F => decide (F.node = n ∧ F.dof = d)).getLast?.map Force.value =
      some (loadForces f forces (6 * (n : ℤ) + d)) := by
  have hfeq : (forces.filter fun F => decide (F.node = n ∧ F.dof = d)) =
      (forces.filter fun F => decide (6 * (F.node : ℤ) + F.dof = 6 * (n : ℤ) + d)) := by
    apply List.filter_congr
    intro F hF
    have hFd := hall F hF
    simp only [decide_eq_decide]
    constructor
    · rintro ⟨hn, hdof⟩
      subst hn
      subst hdof
      rfl
    · intro h
      have hn : F.node = n ∧ F.dof = d := by omega
      exact hn
  rw [loadForces_apply, ← hfeq]
  have hne : (forces.filter fun F => decide (F.node = n ∧ F.dof = d)) ≠ [] := by
    intro hempty
    rw [hempty] at h2
    simp at h2
  rw [foldl_const_getLast _ _ hne, List.getLast?_eq_getLast _ hne]
  rfl

/-- C9 witness: two forces on the same `(node, dof) = (0, 1)` with values 3
then 7: the final right-hand-side entry at index 1 is 7, the last value. -/
theorem loadForces_overwrites_duplicates_witness :
    (([⟨0, 1, 3⟩, ⟨0, 1, 7⟩] : List Force).filter
        fun F => decide (F.node = 0 ∧ F.dof = 1)).getLast?.map Force.value =
      some (loadForces (fun _ => 0) [⟨0, 1, 3⟩, ⟨0, 1, 7⟩] (6 * ((0 : ℕ) : ℤ) + 1)) :=
  loadForces_overwrites_duplicates [⟨0, 1, 3⟩, ⟨0, 1, 7⟩] 0 1 (by norm_num)
    (by
      intro F hF
      simp only [List.mem_cons, List.not_mem_nil, or_false] at hF
      rcases hF with rfl | rfl <;> norm_num)
    (by simp [List.filter])
    (fun _ => 0)

end Fea

namespace Fea

lemma loadEquationsTerms_frame (l : List Term) (Kg : ℤ → ℤ → ℚ) (row r c : ℤ)
    (h : ∀ u ∈ l, ¬(r = row ∧ c = 6 * (u.node_number : ℤ) + u.dof) ∧
      ¬(r = 6 * (u.node_number : ℤ) + u.dof ∧ c = row)) :
    loadEquationsTerms Kg row l r c = Kg r c := by
  induction l generalizing Kg with
  | nil => rfl
  | cons u rest ih =>
      obtain ⟨h1, h2⟩ := h u (List.mem_cons_self u rest)
      rw [loadEquationsTerms, ih _ fun v hv => h v (List.mem_cons_of_mem u hv)]
      simp only [insertK]
      rw [if_neg h2, if_neg h1]

lemma loadEquationsTerms_value (l : List Term) (Kg : ℤ → ℤ → ℚ) (row : ℤ)
    (hlt : ∀ t ∈ l, 6 * (t.node_number : ℤ) + t.dof < row)
    (hdist : l.Pairwise fun a b =>
      6 * (a.node_number : ℤ) + a.dof ≠ 6 * (b.node_number : ℤ) + b.dof) :
    ∀ t ∈ l,
      loadEquationsTerms Kg row l row (6 * (t.node_number : ℤ) + t.dof) = t.coefficient ∧
      loadEquationsTerms Kg row l (6 * (t.node_number : ℤ) + t.dof) row = t.coefficient := by
  induction l generalizing Kg with
  | nil => intro t ht; exact absurd ht (List.not_mem_nil t)
  | cons s rest ih =>
      intro t ht
      rcases List.mem_cons.mp ht with rfl | ht'
      · have hts : 6 * (t.node_number : ℤ) + t.dof < row := hlt t (List.mem_cons_self t rest)
        have hner : row ≠ 6 * (t.node_number : ℤ) + t.dof := ne_of_gt hts
        have hdh := (List.pairwise_cons.mp hdist).1
        have hframe : ∀ u ∈ rest,
            ¬(row = row ∧
              6 * (t.node_number : ℤ) + t.dof = 6 * (u.node_number : ℤ) + u.dof) ∧
            ¬(row = 6 * (u.node_number : ℤ) + u.dof ∧
              6 * (t.node_number : ℤ) + t.dof = row) :=
          fun u hu => ⟨fun hh => hdh u hu hh.2,
            fun hh => ne_of_gt (hlt u (List.mem_cons_of_mem t hu)) hh.1⟩
        have hframe2 : ∀ u ∈ rest,
            ¬(6 * (t.node_number : ℤ) + t.dof = row ∧
              row = 6 * (u.node_number : ℤ) + u.dof) ∧
            ¬(6 * (t.node_number : ℤ) + t.dof = 6 * (u.node_number : ℤ) + u.dof ∧
              row = row) :=
          fun u hu => ⟨fun hh => ne_of_gt (hlt u (List.mem_cons_of_mem t hu)) hh.2,
            fun hh => hdh u hu hh.1⟩
        constructor
        · rw [loadEquationsTerms, loadEquationsTerms_frame rest _ row _ _ hframe]
          simp [insertK, hner]
        · rw [loadEquationsTerms, loadEquationsTerms_frame rest _ row _ _ hframe2]
          simp [insertK]
      · have hrest : ∀ u ∈ rest, 6 * (u.node_number : ℤ) + u.dof < row := fun u hu =>
          hlt u (List.mem_cons_of_mem s hu)
        have hdrest := (List.pairwise_cons.mp hdist).2
        rw [loadEquationsTerms]
        exact ih _ hrest hdrest t ht'

lemma loadEquationsAux_frame (l : List Equation) (Kg : ℤ → ℤ → ℚ) (base r c : ℤ)
    (hr : ∀ k : ℕ, r ≠ base + k) (hc : ∀ k : ℕ, c ≠ base + k) :
    loadEquationsAux Kg l base r c = Kg r c := by
  induction l generalizing Kg base with
  | nil => rfl
  | cons eqn rest ih =>
      have h0r : r ≠ base := by have := hr 0; simpa using this
      have h0c : c ≠ base := by have := hc 0; simpa using this
      rw [loadEquationsAux,
        ih _ _ (fun k => by have := hr (k + 1); push_cast at this ⊢; omega)
          (fun k => by have := hc (k + 1); push_cast at this ⊢; omega),
        loadEquationsTerms_frame eqn.terms Kg base r c fun u hu =>
          ⟨fun hh => h0r hh.1, fun hh => h0c hh.2⟩]

lemma loadEquationsAux_value (l : List Equation) (Kg : ℤ → ℤ → ℚ) (base : ℤ)
    (hall : ∀ eqn ∈ l, ∀ t ∈ eqn.terms, 6 * (t.node_number : ℤ) + t.dof < base)
    (e : Fin l.length)
    (hdist : (l.get e).terms.Pairwise fun a b =>
      6 * (a.node_number : ℤ) + a.dof ≠ 6 * (b.node_number : ℤ) + b.dof) :
    ∀ t ∈ (l.get e).terms,
      loadEquationsAux Kg l base (base + e.val) (6 * (t.node_number : ℤ) + t.dof) =
        t.coefficient ∧
      loadEquationsAux Kg l base (6 * (t.node_number : ℤ) + t.dof) (base + e.val) =
        t.coefficient := by
  induction l generalizing Kg base with
  | nil => exact absurd e.isLt (by simp)
  | cons eqn rest ih =>
      rcases e with ⟨ev, hev⟩
      cases ev with
      | zero =>
          intro t ht
          have hts : 6 * (t.node_number : ℤ) + t.dof < base :=
            hall eqn (List.mem_cons_self eqn rest) t ht
          constructor
          · show loadEquationsAux Kg (eqn :: rest) base (base + ((0 : ℕ) : ℤ))
              (6 * (t.node_number : ℤ) + t.dof) = t.coefficient
            rw [loadEquationsAux,
              loadEquationsAux_frame rest _ (base + 1) _ _
                (fun k => by push_cast; omega)
                (fun k => by have := hts; push_cast; omega)]
            simpa using
              (loadEquationsTerms_value eqn.terms Kg base
                (hall eqn (List.mem_cons_self eqn rest)) hdist t ht).1
          · show loadEquationsAux Kg (eqn :: rest) base
              (6 * (t.node_number : ℤ) + t.dof) (base + ((0 : ℕ) : ℤ)) = t.coefficient
            rw [loadEquationsAux,
              loadEquationsAux_frame rest _ (base + 1) _ _
                (fun k => by have := hts; push_cast; omega)
                (fun k => by push_cast; omega)]
            simpa using
              (loadEquationsTerms_value eqn.terms Kg base
                (hall eqn (List.mem_cons_self eqn rest)) hdist t ht).2
      | succ n =>
          intro t ht
          have hn : n < rest.length := by simpa using hev
          have hrest : ∀ eq ∈ rest, ∀ u ∈ eq.terms,
              6 * (u.node_number : ℤ) + u.dof < base + 1 := fun eq heq u hu => by
            have := hall eq (List.mem_cons_of_mem eqn heq) u hu
            omega
          have harith : base + 1 + ((n : ℕ) : ℤ) = base + (((n + 1 : ℕ)) : ℤ) := by
            push_cast
            ring
          have ihh := ih (loadEquationsTerms Kg base eqn.terms) (base + 1) hrest ⟨n, hn⟩
            hdist t ht
          constructor
          · show loadEquationsAux Kg (eqn :: rest) base (base + ((n + 1 : ℕ) : ℤ))
              (6 * (t.node_number : ℤ) + t.dof) = t.coefficient
            rw [loadEquationsAux, ← harith]
            exact ihh.1
          · show loadEquationsAux Kg (eqn :: rest) base
              (6 * (t.node_number : ℤ) + t.dof) (base + ((n + 1 : ℕ) : ℤ)) = t.coefficient
            rw [loadEquationsAux, ← harith]
            exact ihh.2

end Fea

namespace Fea

lemma globalIndex_bounds (num_nodes nn1 nn2 : ℕ) (h1 : nn1 < num_nodes)
    (h2 : nn2 < num_nodes) (r : ℕ) (hr : r < 12) :
    0 ≤ globalIndex (nn1 : ℤ) (nn2 : ℤ) r ∧
      globalIndex (nn1 : ℤ) (nn2 : ℤ) r < 6 * (num_nodes : ℤ) := by
  unfold globalIndex
  split <;> constructor <;> push_cast <;> omega

lemma elemTriplets_bounds (num_nodes nn1 nn2 : ℕ) (h1 : nn1 < num_nodes)
    (h2 : nn2 < num_nodes) (K : Matrix (Fin 12) (Fin 12) ℚ) :
    ∀ t ∈ elemTriplets (nn1 : ℤ) (nn2 : ℤ) K,
      0 ≤ t.1 ∧ t.1 < 6 * (num_nodes : ℤ) ∧ 0 ≤ t.2.1 ∧ t.2.1 < 6 * (num_nodes : ℤ) := by
  intro t ht
  simp only [elemTriplets, List.mem_flatMap, List.mem_filterMap, List.mem_finRange,
    true_and] at ht
  obtain ⟨c, r, hsome⟩ := ht
  by_cases hz : K r c = 0
  · rw [if_pos hz] at hsome
    exact absurd hsome (by simp)
  · rw [if_neg hz] at hsome
    have ht' := Option.some_inj.mp hsome
    subst ht'
    have hb1 := globalIndex_bounds num_nodes nn1 nn2 h1 h2 r.val r.isLt
    have hb2 := globalIndex_bounds num_nodes nn1 nn2 h1 h2 c.val c.isLt
    exact ⟨hb1.1, hb1.2, hb2.1, hb2.2⟩

lemma tieTriplets_bounds (num_nodes : ℕ) (ties : List Tie)
    (hties : ∀ t ∈ ties, t.node_number_1 < num_nodes ∧ t.node_number_2 < num_nodes) :
    ∀ tr ∈ tieTriplets ties,
      0 ≤ tr.1 ∧ tr.1 < 6 * (num_nodes : ℤ) ∧ 0 ≤ tr.2.1 ∧ tr.2.1 < 6 * (num_nodes : ℤ) := by
  intro tr htr
  simp only [tieTriplets, List.mem_flatMap, List.mem_range] at htr
  obtain ⟨t, ht, j, hj, hmem⟩ := htr
  have hb := hties t ht
  simp only [List.mem_cons, List.not_mem_nil, or_false] at hmem
  rcases hmem with rfl | rfl | rfl | rfl <;>
    refine ⟨?_, ?_, ?_, ?_⟩ <;> simp only [] <;> push_cast <;> omega

lemma setFromTriplets_support (ts : List Triplet) (N : ℤ)
    (h : ∀ t ∈ ts, 0 ≤ t.1 ∧ t.1 < N ∧ 0 ≤ t.2.1 ∧ t.2.1 < N) :
    ∀ r c, setFromTriplets ts r c ≠ 0 → 0 ≤ r ∧ r < N ∧ 0 ≤ c ∧ c < N := by
  intro r c hne
  rw [setFromTriplets_apply] at hne
  by_cases hf : (ts.filter fun t => decide (r = t.1 ∧ c = t.2.1)) = []
  · rw [hf] at hne
    simp at hne
  · obtain ⟨t, htmem⟩ := List.exists_mem_of_ne_nil _ hf
    obtain ⟨htl, htp⟩ := List.mem_filter.mp htmem
    obtain ⟨hr, hc⟩ := of_decide_eq_true htp
    subst hr
    subst hc
    exact h t htl

lemma assembleKg_support (elems : List ElemContrib) (ties : List Tie) (num_nodes : ℕ)
    (helems : ∀ e ∈ elems, e.nn1 < num_nodes ∧ e.nn2 < num_nodes)
    (hties : ∀ t ∈ ties, t.node_number_1 < num_nodes ∧ t.node_number_2 < num_nodes) :
    ∀ r c, assembleKg elems ties r c ≠ 0 →
      0 ≤ r ∧ r < 6 * (num_nodes : ℤ) ∧ 0 ≤ c ∧ c < 6 * (num_nodes : ℤ) := by
  apply setFromTriplets_support
  intro t ht
  rw [assembleTriplets, List.mem_append] at ht
  rcases ht with ht | ht
  · rw [List.mem_flatMap] at ht
    obtain ⟨e, he, hte⟩ := ht
    exact elemTriplets_bounds num_nodes e.nn1 e.nn2 (helems e he).1 (helems e he).2 e.K t hte
  · exact tieTriplets_bounds num_nodes ties hties t ht

lemma loadBCsAuxK_support (l : List BC) (Kg : ℤ → ℤ → ℚ) (lag : ℤ) (N : ℤ)
    (hK : ∀ r c, Kg r c ≠ 0 → 0 ≤ r ∧ r < N ∧ 0 ≤ c ∧ c < N)
    (hbcs : ∀ bc ∈ l, 0 ≤ 6 * (bc.node : ℤ) + bc.dof ∧ 6 * (bc.node : ℤ) + bc.dof < N)
    (hlag : 0 ≤ lag) (hlen : lag + l.length ≤ N) :
    ∀ r c, loadBCsAuxK Kg l lag r c ≠ 0 → 0 ≤ r ∧ r < N ∧ 0 ≤ c ∧ c < N := by
  induction l generalizing Kg lag with
  | nil => exact hK
  | cons bc rest ih =>
      intro r c h
      rw [loadBCsAuxK] at h
      have hbc := hbcs bc (List.mem_cons_self bc rest)
      have hlagN : lag < N := by
        simp only [List.length_cons] at hlen
        push_cast at hlen
        omega
      refine ih _ (lag + 1) ?_ (fun b hb => hbcs b (List.mem_cons_of_mem bc hb))
        (by omega) (by simp only [List.length_cons] at hlen; push_cast at hlen ⊢; omega) r c h
      intro r' c' h'
      simp only [insertK] at h'
      split_ifs at h' with h1 h2
      · obtain ⟨rfl, rfl⟩ := h1
        exact ⟨hlag, hlagN, hbc.1, hbc.2⟩
      · obtain ⟨rfl, rfl⟩ := h2
        exact ⟨hbc.1, hbc.2, hlag, hlagN⟩
      · exact hK r' c' h'

lemma loadEquationsTerms_support (l : List Term) (Kg : ℤ → ℤ → ℚ) (row : ℤ) (N : ℤ)
    (hK : ∀ r c, Kg r c ≠ 0 → 0 ≤ r ∧ r < N ∧ 0 ≤ c ∧ c < N)
    (hterms : ∀ t ∈ l, 0 ≤ 6 * (t.node_number : ℤ) + t.dof ∧
      6 * (t.node_number : ℤ) + t.dof < N)
    (hrow : 0 ≤ row ∧ row < N) :
    ∀ r c, loadEquationsTerms Kg row l r c ≠ 0 → 0 ≤ r ∧ r < N ∧ 0 ≤ c ∧ c < N := by
  induction l generalizing Kg with
  | nil => exact hK
  | cons t rest ih =>
      intro r c h
      rw [loadEquationsTerms] at h
      have htb := hterms t (List.mem_cons_self t rest)
      refine ih _ ?_ (fun u hu => hterms u (List.mem_cons_of_mem t hu)) r c h
      intro r' c' h'
      simp only [insertK] at h'
      split_ifs at h' with h1 h2
      · obtain ⟨rfl, rfl⟩ := h1
        exact ⟨htb.1, htb.2, hrow.1, hrow.2⟩
      · obtain ⟨rfl, rfl⟩ := h2
        exact ⟨hrow.1, hrow.2, htb.1, htb.2⟩
      · exact hK r' c' h'

lemma loadEquationsAux_support (l : List Equation) (Kg : ℤ → ℤ → ℚ) (base : ℤ) (N : ℤ)
    (hK : ∀ r c, Kg r c ≠ 0 → 0 ≤ r ∧ r < N ∧ 0 ≤ c ∧ c < N)
    (hterms : ∀ eqn ∈ l, ∀ t ∈ eqn.terms, 0 ≤ 6 * (t.node_number : ℤ) + t.dof ∧
      6 * (t.node_number : ℤ) + t.dof < N)
    (hbase : 0 ≤ base) (hlen : base + l.length ≤ N) :
    ∀ r c, loadEquationsAux Kg l base r c ≠ 0 → 0 ≤ r ∧ r < N ∧ 0 ≤ c ∧ c < N := by
  induction l generalizing Kg base with
  | nil => exact hK
  | cons eqn rest ih =>
      intro r c h
      rw [loadEquationsAux] at h
      have hbaseN : base < N := by
        simp only [List.length_cons] at hlen
        push_cast at hlen
        omega
      refine ih _ (base + 1)
        (loadEquationsTerms_support eqn.terms Kg base N hK
          (hterms eqn (List.mem_cons_self eqn rest)) ⟨hbase, hbaseN⟩)
        (fun eq heq => hterms eq (List.mem_cons_of_mem eqn heq))
        (by omega) (by simp only [List.length_cons] at hlen; push_cast at hlen ⊢; omega) r c h

lemma loadBCsAuxF_support (l : List BC) (f : ℤ → ℚ) (lag : ℤ) (N : ℤ)
    (hf : ∀ r, f r ≠ 0 → 0 ≤ r ∧ r < N)
    (hlag : 0 ≤ lag) (hlen : lag + l.length ≤ N) :
    ∀ r, loadBCsAuxF f l lag r ≠ 0 → 0 ≤ r ∧ r < N := by
  induction l generalizing f lag with
  | nil => exact hf
  | cons bc rest ih =>
      intro r h
      rw [loadBCsAuxF] at h
      have hlagN : lag < N := by
        simp only [List.length_cons] at hlen
        push_cast at hlen
        omega
      refine ih _ (lag + 1) ?_ (by omega)
        (by simp only [List.length_cons] at hlen; push_cast at hlen ⊢; omega) r h
      intro r' h'
      by_cases hv : machineEpsilon < |bc.value|
      · rw [if_pos hv] at h'
        simp only [insertF] at h'
        split_ifs at h' with h1
        · subst h1
          exact ⟨hlag, hlagN⟩
        · exact hf r' h'
      · rw [if_neg hv] at h'
        exact hf r' h'

lemma loadForces_support (l : List Force) (f : ℤ → ℚ) (N : ℤ)
    (hf : ∀ r, f r ≠ 0 → 0 ≤ r ∧ r < N)
    (hforces : ∀ F ∈ l, 0 ≤ 6 * (F.node : ℤ) + F.dof ∧ 6 * (F.node : ℤ) + F.dof < N) :
    ∀ r, loadForces f l r ≠ 0 → 0 ≤ r ∧ r < N := by
  induction l generalizing f with
  | nil => exact hf
  | cons F rest ih =>
      intro r h
      rw [loadForces] at h
      have hFb := hforces F (List.mem_cons_self F rest)
      refine ih _ ?_ (fun G hG => hforces G (List.mem_cons_of_mem F hG)) r h
      intro r' h'
      simp only [insertF] at h'
      split_ifs at h' with h1
      · subst h1
        exact hFb
      · exact hf r' h'

end Fea

namespace Fea

/-- C7: the nodal-force entry `(i, j)` computed by `solve` equals the epsilon
rounding of row `6·i + j` of `K_free · u`, where `K_free` is the physical
stiffness assembled from elements and ties (the matrix before the Lagrange
rows added by `loadBCs`) and `u` the leading `6·num_nodes` entries of the
solution vector; the nodal displacement entry is the same epsilon rounding of
`u` itself. -/
theorem solve_postprocessing_free_block (elems : List ElemContrib) (ties : List Tie)
    (BCs : List BC) (num_nodes : ℕ) (disp : ℤ → ℚ) (eps : ℚ) (i j : ℕ)
    (hi : i < num_nodes) (hj : j < 6) :
    nodalForcesEntry (loadBCs_K (assembleKg elems ties) BCs num_nodes) disp num_nodes
        eps i j =
      roundEps eps (∑ c ∈ Finset.range (6 * num_nodes),
        assembleKg elems ties (6 * (i : ℤ) + j) (c : ℤ) * disp (c : ℤ)) ∧
    dispVecEntry disp eps i j = roundEps eps (disp (6 * (i : ℤ) + j)) := by
  constructor
  · have h0 : nodalForcesEntry (loadBCs_K (assembleKg elems ties) BCs num_nodes) disp
        num_nodes eps i j =
        roundEps eps (sparseMatVec
          (topLeftCorner (loadBCs_K (assembleKg elems ties) BCs num_nodes) (6 * num_nodes))
          (topRows disp (6 * num_nodes)) (6 * num_nodes) (6 * (i : ℤ) + j)) := rfl
    rw [h0]
    congr 1
    unfold sparseMatVec
    apply Finset.sum_congr rfl
    intro c hc
    rw [Finset.mem_range] at hc
    have hrow1 : (0 : ℤ) ≤ 6 * (i : ℤ) + j := by positivity
    have hrow2 : 6 * (i : ℤ) + j < 6 * (num_nodes : ℕ) := by push_cast; omega
    have hcol1 : (0 : ℤ) ≤ (c : ℤ) := by positivity
    have hcol2 : ((c : ℕ) : ℤ) < 6 * (num_nodes : ℕ) := by push_cast; omega
    simp only [topLeftCorner, topRows]
    rw [if_pos ⟨hrow1, hrow2, hcol1, hcol2⟩, if_pos ⟨hcol1, hcol2⟩, loadBCs_K,
      loadBCsAuxK_frame BCs _ _ _ _ (fun k => by push_cast; omega)
        (fun k => by push_cast; omega)]
  · rfl

/-- C7 witness: the theorem applied to the empty model with one node, the
all-ones solution vector and `eps = 0` at entry `(0, 0)`. -/
theorem solve_postprocessing_free_block_witness :
    (0 : ℕ) < 1 ∧
    (nodalForcesEntry (loadBCs_K (assembleKg [] []) [] 1) (fun _ => 1) 1 0 0 0 =
      roundEps 0 (∑ c ∈ Finset.range (6 * 1),
        assembleKg [] [] (6 * ((0 : ℕ) : ℤ) + (0 : ℕ)) (c : ℤ) *
          (fun _ => (1 : ℚ)) (c : ℤ)) ∧
     dispVecEntry (fun _ => 1) 0 0 0 = roundEps 0 ((fun _ => (1 : ℚ)) (6 * ((0 : ℕ) : ℤ) + (0 : ℕ)))) :=
  ⟨by norm_num,
    solve_postprocessing_free_block [] [] [] 1 (fun _ => 1) 0 0 0 (by norm_num) (by norm_num)⟩

end Fea

namespace Fea

/-- C5: (spec-modelled `loadEquations`/six-argument `solve`) the global system
is square of order `N = 6·|nodes| + |BCs| + |equations|`: every nonzero
coefficient of the assembled-and-augmented matrix lies in `[0, N)²`; the
right-hand side is supported on `[0, 6·|nodes| + |BCs|)` — in particular the
equation rows carry 0; the Lagrange row/column of BC `i` is `6·|nodes| + i`;
and the Lagrange row/column of equation `e` is `6·|nodes| + |BCs| + e`,
carrying each term's coefficient at column `6·n + d`. -/
theorem solve_system_order_and_rows
    (elems : List ElemContrib) (ties : List Tie) (BCs : List BC) (eqns : List Equation)
    (forces : List Force) (num_nodes : ℕ)
    (helems : ∀ e ∈ elems, e.nn1 < num_nodes ∧ e.nn2 < num_nodes)
    (hties : ∀ t ∈ ties, t.node_number_1 < num_nodes ∧ t.node_number_2 < num_nodes)
    (hbcs : ∀ bc ∈ BCs, bc.node < num_nodes ∧ bc.dof < 6)
    (heqns : ∀ eqn ∈ eqns, ∀ t ∈ eqn.terms, t.node_number < num_nodes ∧ t.dof < 6)
    (hforces : ∀ F ∈ forces, F.node < num_nodes ∧ F.dof < 6) :
    (∀ r c : ℤ, solveKg elems ties BCs eqns num_nodes r c ≠ 0 →
      0 ≤ r ∧ r < (solveSize num_nodes BCs.length eqns.length : ℤ) ∧
      0 ≤ c ∧ c < (solveSize num_nodes BCs.length eqns.length : ℤ)) ∧
    (∀ r : ℤ, solveF BCs forces num_nodes r ≠ 0 →
      0 ≤ r ∧ r < 6 * (num_nodes : ℤ) + BCs.length) ∧
    (∀ i : Fin BCs.length,
      solveKg elems ties BCs eqns num_nodes (6 * (num_nodes : ℤ) + i.val)
        (6 * ((BCs.get i).node : ℤ) + (BCs.get i).dof) = 1 ∧
      solveKg elems ties BCs eqns num_nodes (6 * ((BCs.get i).node : ℤ) + (BCs.get i).dof)
        (6 * (num_nodes : ℤ) + i.val) = 1) ∧
    (∀ e : Fin eqns.length,
      ((eqns.get e).terms.Pairwise fun a b =>
        6 * (a.node_number : ℤ) + a.dof ≠ 6 * (b.node_number : ℤ) + b.dof) →
      ∀ t ∈ (eqns.get e).terms,
        solveKg elems ties BCs eqns num_nodes
          (6 * (num_nodes : ℤ) + BCs.length + e.val) (6 * (t.node_number : ℤ) + t.dof) =
          t.coefficient ∧
        solveKg elems ties BCs eqns num_nodes
          (6 * (t.node_number : ℤ) + t.dof) (6 * (num_nodes : ℤ) + BCs.length + e.val) =
          t.coefficient) := by
  have hN : (solveSize num_nodes BCs.length eqns.length : ℤ) =
      6 * (num_nodes : ℤ) + BCs.length + eqns.length := by
    unfold solveSize
    push_cast
    ring
  refine ⟨?_, ?_, ?_, ?_⟩
  · -- support of the augmented matrix
    intro r c h
    unfold solveKg loadEquations at h
    rw [hN]
    refine loadEquationsAux_support eqns _ _ _ ?_ ?_ (by positivity) (by omega) r c h
    · intro r' c' h'
      unfold loadBCs_K at h'
      have hKfree := assembleKg_support elems ties num_nodes helems hties
      have hsupp := loadBCsAuxK_support BCs (assembleKg elems ties) (6 * (num_nodes : ℤ))
        (6 * (num_nodes : ℤ) + BCs.length)
        (fun r c hrc => by
          have := hKfree r c hrc
          refine ⟨this.1, by omega, this.2.2.1, by omega⟩)
        (fun bc hbc => by
          have := hbcs bc hbc
          constructor <;> push_cast <;> omega)
        (by positivity) (by omega) r' c' h'
      exact ⟨hsupp.1, by omega, hsupp.2.2.1, by omega⟩
    · intro eqn heq t ht
      have := heqns eqn heq t ht
      constructor <;> push_cast <;> omega
  · -- support of the right-hand side
    intro r h
    unfold solveF at h
    refine loadForces_support forces _ _ ?_ ?_ r h
    · intro r' h'
      refine loadBCsAuxF_support BCs (fun _ => 0) (6 * (num_nodes : ℤ))
        (6 * (num_nodes : ℤ) + BCs.length) (fun r'' h'' => absurd rfl h'')
        (by positivity) (by omega) r' h'
    · intro F hF
      have := hforces F hF
      constructor <;> push_cast <;> omega
  · -- BC Lagrange rows survive loadEquations
    intro i
    have hall : ∀ bc ∈ BCs, 6 * (bc.node : ℤ) + bc.dof < 6 * (num_nodes : ℤ) := by
      intro bc hbc
      have := hbcs bc hbc
      push_cast
      omega
    have hk := loadBCsAuxK_value BCs (assembleKg elems ties) (6 * (num_nodes : ℤ)) hall i
    have hbci : 6 * ((BCs.get i).node : ℤ) + (BCs.get i).dof < 6 * (num_nodes : ℤ) :=
      hall _ (List.get_mem BCs i.val i.isLt)
    have hi := i.isLt
    constructor
    · show loadEquationsAux _ eqns (6 * (num_nodes : ℤ) + BCs.length) _ _ = 1
      rw [loadEquationsAux_frame eqns _ _ _ _
        (fun k => by push_cast; omega) (fun k => by have := hbci; push_cast; omega)]
      exact hk.1
    · show loadEquationsAux _ eqns (6 * (num_nodes : ℤ) + BCs.length) _ _ = 1
      rw [loadEquationsAux_frame eqns _ _ _ _
        (fun k => by have := hbci; push_cast; omega) (fun k => by push_cast; omega)]
      exact hk.2
  · -- equation Lagrange rows
    intro e hdist t ht
    have hall : ∀ eqn ∈ eqns, ∀ u ∈ eqn.terms,
        6 * (u.node_number : ℤ) + u.dof < 6 * (num_nodes : ℤ) + BCs.length := by
      intro eqn heq u hu
      have := heqns eqn heq u hu
      push_cast
      omega
    have hv := loadEquationsAux_value eqns (loadBCs_K (assembleKg elems ties) BCs num_nodes)
      (6 * (num_nodes : ℤ) + BCs.length) hall e hdist t ht
    exact hv

end Fea

namespace Fea

/-- C5 witness: one node, one boundary condition and one one-term equation
constraint: the BC Lagrange pair lands at row/column `6 = 6·1 + 0`, as given by
the theorem applied to this concrete system. -/
theorem solve_system_order_and_rows_witness :
    solveKg [] [] [⟨0, 0, 0⟩] [⟨[⟨0, 0, 2⟩]⟩] 1 6 0 = 1 ∧
    solveKg [] [] [⟨0, 0, 0⟩] [⟨[⟨0, 0, 2⟩]⟩] 1 0 6 = 1 := by
  have h := (solve_system_order_and_rows [] [] [⟨0, 0, 0⟩] [⟨[⟨0, 0, 2⟩]⟩] [] 1
    (by simp) (by simp)
    (by
      intro bc hbc
      rw [List.mem_singleton] at hbc
      subst hbc
      exact ⟨by norm_num, by norm_num⟩)
    (by
      intro eqn heq t ht
      rw [List.mem_singleton] at heq
      subst heq
      rw [List.mem_singleton] at ht
      subst ht
      exact ⟨by norm_num, by norm_num⟩)
    (by simp)).2.2.1 ⟨0, by norm_num⟩
  simp only [List.get] at h
  norm_num at h
  exact h

end Fea
